import Mathlib

/-!
Verification development for the games-nes data-preparation scripts.

The repository has three batch scripts:
- add_cheats_field.py : the Catalog Annotator,
- copy_cheats.py      : the Name-Matching Cheat Importer,
- translate_cheats.py : the Description Translator.

Each Python function used by the claims is embedded below as an executable
Lean definition over lists and strings.  Python dicts are modelled as
insertion-ordered association lists (`List (String × v)`): assigning to an
existing key updates the value in place, assigning to a fresh key appends,
which is exactly the CPython dict behaviour the scripts rely on.
-/

namespace GamesNes

/-! ## Shared dict model -/

/-- Keys of an association list (the dict in insertion order). -/
def keysOf {V : Type} (m : List (String × V)) : List String := m.map Prod.fst

/-- Python `k in d` for the ordered-dict model. -/
def hasKey {V : Type} (m : List (String × V)) (k : String) : Bool :=
  m.any (fun p => p.1 = k)

/-- Python `d[k] = v` on an insertion-ordered dict: update in place when the
key exists, append otherwise. -/
def dictInsert {V : Type} (m : List (String × V)) (k : String) (v : V) :
    List (String × V) :=
  if hasKey m k then m.map (fun p => if p.1 = k then (k, v) else p)
  else m ++ [(k, v)]

/-- Python `d.get(k)` / `d[k]` as an option, on the ordered-dict model. -/
def lookupS {V : Type} (m : List (String × V)) (k : String) : Option V :=
  (m.find? (fun p => p.1 = k)).map Prod.snd

/-! ## normalize_name (copy_cheats.py lines 15-26)

Python runs three regex substitutions:
`re.sub(r'\([^)]*\)', '', name)`, the same for square brackets, and finally
`re.sub(r'[^a-z0-9]', '', name)`, after lower-casing the input.
-/

/-- Drop characters up to and through the first occurrence of `c`;
`none` when `c` does not occur.  Models the regex engine finding the
closing delimiter for `[^x]*x`. -/
def dropThroughClose (c : Char) : List Char → Option (List Char)
  | [] => none
  | x :: rest => if x = c then some rest else dropThroughClose c rest

theorem dropThroughClose_length (c : Char) :
    ∀ l l', dropThroughClose c l = some l' → l'.length < l.length := by
  intro l
  induction l with
  | nil => intro l' h; simp [dropThroughClose] at h
  | cons x rest ih =>
    intro l' h
    by_cases hx : x = c
    · simp [dropThroughClose, hx] at h
      subst h; simp
    · simp [dropThroughClose, hx] at h
      exact Nat.lt_trans (ih l' h) (Nat.lt_succ_self _)

/-- Fuel-driven engine for the regex-substitution model; the fuel only has
to dominate the list length, which every caller guarantees. -/
def removeGroupsSubF (o c : Char) : Nat → List Char → List Char
  | _, [] => []
  | 0, l => l
  | Nat.succ fuel, x :: rest =>
    if x = o then
      match dropThroughClose c rest with
      | some after => removeGroupsSubF o c fuel after
      | none => x :: removeGroupsSubF o c fuel rest
    else x :: removeGroupsSubF o c fuel rest

/-- Model of `re.sub(r'o[^c]*c', '', s)` for single-character delimiters
`o`, `c`: scanning left to right, each occurrence of `o` followed
(anywhere later) by a `c` is removed together with everything between,
and scanning resumes after the removed match. -/
def removeGroupsSub (o c : Char) (l : List Char) : List Char :=
  removeGroupsSubF o c l.length l

theorem removeGroupsSubF_fuel_irrel (o c : Char) :
    ∀ (n : Nat) (l : List Char) (m : Nat), l.length ≤ n → l.length ≤ m →
      removeGroupsSubF o c n l = removeGroupsSubF o c m l := by
  intro n
  induction n with
  | zero =>
    intro l m hn _
    have : l = [] := List.length_eq_zero.1 (Nat.le_zero.1 hn)
    subst this
    cases m <;> rfl
  | succ n ih =>
    intro l m hn hm
    cases l with
    | nil => cases m <;> rfl
    | cons x rest =>
      cases m with
      | zero => exact absurd hm (by simp)
      | succ m =>
        have hrn : rest.length ≤ n := Nat.le_of_succ_le_succ hn
        have hrm : rest.length ≤ m := Nat.le_of_succ_le_succ hm
        show removeGroupsSubF o c (n + 1) (x :: rest) = removeGroupsSubF o c (m + 1) (x :: rest)
        rw [removeGroupsSubF, removeGroupsSubF]
        by_cases ho : x = o
        · rw [if_pos ho, if_pos ho]
          cases h : dropThroughClose c rest with
          | some after =>
            have hlen := dropThroughClose_length c rest after h
            exact ih after m (Nat.le_of_lt (Nat.lt_of_lt_of_le hlen hrn))
              (Nat.le_trans (Nat.le_of_lt hlen) hrm)
          | none => rw [ih rest m hrn hrm]
        · rw [if_neg ho, if_neg ho, ih rest m hrn hrm]

theorem removeGroupsSub_cons_open (o c : Char) (rest after : List Char)
    (h : dropThroughClose c rest = some after) :
    removeGroupsSub o c (o :: rest) = removeGroupsSub o c after := by
  unfold removeGroupsSub
  show removeGroupsSubF o c (rest.length + 1) (o :: rest) = _
  rw [removeGroupsSubF, if_pos rfl, h]
  exact removeGroupsSubF_fuel_irrel o c rest.length after after.length
    (Nat.le_of_lt (dropThroughClose_length c rest after h)) (Nat.le_refl _)

theorem removeGroupsSub_cons_open_none (o c : Char) (rest : List Char)
    (h : dropThroughClose c rest = none) :
    removeGroupsSub o c (o :: rest) = o :: removeGroupsSub o c rest := by
  unfold removeGroupsSub
  show removeGroupsSubF o c (rest.length + 1) (o :: rest) = _
  rw [removeGroupsSubF, if_pos rfl, h]

theorem removeGroupsSub_cons_other (o c x : Char) (rest : List Char) (h : ¬ x = o) :
    removeGroupsSub o c (x :: rest) = x :: removeGroupsSub o c rest := by
  unfold removeGroupsSub
  show removeGroupsSubF o c (rest.length + 1) (x :: rest) = _
  rw [removeGroupsSubF, if_neg h]

/-- ASCII upper-case test (`A`-`Z`), by code point. -/
def isUpperAscii (ch : Char) : Bool := 65 ≤ ch.toNat && ch.toNat ≤ 90

/-- Lower-case ASCII letter or digit, the character class `[a-z0-9]` kept by
the final regex of `normalize_name`. -/
def isLowerAlnum (ch : Char) : Bool :=
  (97 ≤ ch.toNat && ch.toNat ≤ 122) || (48 ≤ ch.toNat && ch.toNat ≤ 57)

/-- ASCII-range model of Python `str.lower` on one character. -/
def lowerChar (ch : Char) : Char :=
  if h : 65 ≤ ch.toNat ∧ ch.toNat ≤ 90 then
    ⟨⟨⟨ch.toNat + 32, by omega⟩⟩, Or.inl (by show ch.toNat + 32 < 55296; omega)⟩
  else ch

/-- Model of Python `str.lower` (ASCII range). -/
def pyLower (s : String) : String := String.mk (s.data.map lowerChar)

/-- Embedding of `normalize_name` from copy_cheats.py: empty input is
returned immediately (the `if not name` guard), otherwise lower-case,
remove `(...)` groups, remove `[...]` groups, and keep only `[a-z0-9]`. -/
def normalize_name (name : String) : String :=
  if name = "" then ""
  else
    String.mk
      (((removeGroupsSub '[' ']'
          (removeGroupsSub '(' ')' (pyLower name).data))).filter isLowerAlnum)

/-! ## Spec-side normalization (spec.md section 4.1, "Normalization function")

The spec words the second step as "Remove all parenthesized (...) and
bracketed [...] substrings".  We state that as a single left-to-right scan
with an explicit pending-group buffer and prove it equal to the
regex-substitution model used by the code.
-/

/-- One left-to-right scan removing delimited groups.  The second argument
is `none` outside a group and `some buf` inside a pending group whose
characters so far are `buf`; a pending group that never closes is emitted
verbatim. -/
def scanRemoveAux (o c : Char) : List Char → Option (List Char) → List Char
  | [], none => []
  | [], some buf => buf
  | x :: rest, none =>
    if x = o then scanRemoveAux o c rest (some [o])
    else x :: scanRemoveAux o c rest none
  | x :: rest, some buf =>
    if x = c then scanRemoveAux o c rest none
    else scanRemoveAux o c rest (some (buf ++ [x]))

/-- Spec-side removal of all `o...c` delimited substrings. -/
def scanRemove (o c : Char) (l : List Char) : List Char := scanRemoveAux o c l none

/-- ASCII letter or digit, the character class the spec keeps in step 3. -/
def isAsciiAlnum (ch : Char) : Bool := isUpperAscii ch || isLowerAlnum ch

/-- Normalization exactly as the spec words it: lower-case, remove
parenthesized then bracketed substrings, strip every character that is not
an ASCII letter or digit. -/
def spec_normalize (name : String) : String :=
  String.mk
    ((scanRemove '[' ']' (scanRemove '(' ')' (pyLower name).data)).filter isAsciiAlnum)

theorem scanRemoveAux_some (o c : Char) :
    ∀ (l buf : List Char),
      scanRemoveAux o c l (some buf) =
        match dropThroughClose c l with
        | some after => scanRemoveAux o c after none
        | none => buf ++ l := by
  intro l
  induction l with
  | nil => intro buf; simp [scanRemoveAux, dropThroughClose]
  | cons x rest ih =>
    intro buf
    by_cases hx : x = c
    · simp [scanRemoveAux, dropThroughClose, hx]
    · have hstep : scanRemoveAux o c (x :: rest) (some buf)
          = scanRemoveAux o c rest (some (buf ++ [x])) := by
        simp [scanRemoveAux, hx]
      rw [hstep, ih]
      cases h : dropThroughClose c rest with
      | some after => simp [dropThroughClose, hx, h]
      | none => simp [dropThroughClose, hx, h]

theorem removeGroupsSub_no_close (o c : Char) :
    ∀ l, dropThroughClose c l = none → removeGroupsSub o c l = l := by
  intro l
  induction l with
  | nil => intro _; simp [removeGroupsSub, removeGroupsSubF]
  | cons x rest ih =>
    intro h
    have hx : x ≠ c := by
      intro hc; simp [dropThroughClose, hc] at h
    have hrest : dropThroughClose c rest = none := by
      simpa [dropThroughClose, hx] using h
    by_cases ho : x = o
    · rw [ho, removeGroupsSub_cons_open_none o c rest hrest, ih hrest]
    · rw [removeGroupsSub_cons_other o c x rest ho, ih hrest]

theorem scanRemove_eq_removeGroupsSub_aux (o c : Char) :
    ∀ (n : Nat) (l : List Char), l.length ≤ n →
      scanRemoveAux o c l none = removeGroupsSub o c l := by
  intro n
  induction n with
  | zero =>
    intro l hl
    have : l = [] := List.length_eq_zero.1 (Nat.le_zero.1 hl)
    subst this
    simp [scanRemoveAux, removeGroupsSub, removeGroupsSubF]
  | succ n ih =>
    intro l hl
    cases l with
    | nil => simp [scanRemoveAux, removeGroupsSub, removeGroupsSubF]
    | cons x rest =>
      have hrest : rest.length ≤ n := Nat.le_of_succ_le_succ hl
      by_cases ho : x = o
      · rw [ho]
        have hstep : scanRemoveAux o c (o :: rest) none
            = scanRemoveAux o c rest (some [o]) := by
          simp [scanRemoveAux]
        rw [hstep, scanRemoveAux_some]
        cases h : dropThroughClose c rest with
        | some after =>
          have hafter : after.length ≤ n :=
            Nat.le_of_lt (Nat.lt_of_lt_of_le (dropThroughClose_length c rest after h) hrest)
          rw [removeGroupsSub_cons_open o c rest after h]
          exact ih after hafter
        | none =>
          rw [removeGroupsSub_cons_open_none o c rest h,
            removeGroupsSub_no_close o c rest h]
          simp
      · have hstep : scanRemoveAux o c (x :: rest) none
            = x :: scanRemoveAux o c rest none := by
          simp [scanRemoveAux, ho]
        rw [hstep, ih rest hrest, removeGroupsSub_cons_other o c x rest ho]

theorem scanRemove_eq_removeGroupsSub (o c : Char) (l : List Char) :
    scanRemove o c l = removeGroupsSub o c l :=
  scanRemove_eq_removeGroupsSub_aux o c l.length l (Nat.le_refl _)

theorem mem_dropThroughClose (c : Char) :
    ∀ l l', dropThroughClose c l = some l' → ∀ x ∈ l', x ∈ l := by
  intro l
  induction l with
  | nil => intro l' h; simp [dropThroughClose] at h
  | cons y rest ih =>
    intro l' h x hx
    by_cases hy : y = c
    · simp [dropThroughClose, hy] at h
      subst h
      exact List.mem_cons_of_mem _ hx
    · simp [dropThroughClose, hy] at h
      exact List.mem_cons_of_mem _ (ih l' h x hx)

theorem mem_removeGroupsSub (o c : Char) :
    ∀ (n : Nat) (l : List Char), l.length ≤ n →
      ∀ x ∈ removeGroupsSub o c l, x ∈ l := by
  intro n
  induction n with
  | zero =>
    intro l hl
    have : l = [] := List.length_eq_zero.1 (Nat.le_zero.1 hl)
    subst this
    simp [removeGroupsSub, removeGroupsSubF]
  | succ n ih =>
    intro l hl
    cases l with
    | nil => simp [removeGroupsSub, removeGroupsSubF]
    | cons y rest =>
      have hrest : rest.length ≤ n := Nat.le_of_succ_le_succ hl
      intro x hx
      by_cases ho : y = o
      · rw [ho] at hx ⊢
        cases h : dropThroughClose c rest with
        | some after =>
          rw [removeGroupsSub_cons_open o c rest after h] at hx
          have hafter : after.length ≤ n :=
            Nat.le_of_lt (Nat.lt_of_lt_of_le (dropThroughClose_length c rest after h) hrest)
          exact List.mem_cons_of_mem _
            (mem_dropThroughClose c rest after h x (ih after hafter x hx))
        | none =>
          rw [removeGroupsSub_cons_open_none o c rest h] at hx
          rcases List.mem_cons.1 hx with h1 | h1
          · cases h1; exact List.mem_cons_self _ _
          · exact List.mem_cons_of_mem _ (ih rest hrest x h1)
      · rw [removeGroupsSub_cons_other o c y rest ho] at hx
        rcases List.mem_cons.1 hx with h1 | h1
        · cases h1; exact List.mem_cons_self _ _
        · exact List.mem_cons_of_mem _ (ih rest hrest x h1)

theorem isUpperAscii_lowerChar (ch : Char) : isUpperAscii (lowerChar ch) = false := by
  unfold lowerChar
  split
  · next h =>
    have hval : (Char.toNat ⟨⟨⟨ch.toNat + 32, by omega⟩⟩,
        Or.inl (by show ch.toNat + 32 < 55296; omega)⟩) = ch.toNat + 32 := rfl
    simp only [isUpperAscii, hval]
    have : ¬ (ch.toNat + 32 ≤ 90) := by omega
    simp [this]
  · next h =>
    simp only [isUpperAscii]
    rcases Decidable.not_and_iff_or_not.1 h with h1 | h1
    · simp [Nat.not_le.1 h1, Nat.not_le]
    · simp [Nat.not_le.1 h1, Nat.not_le]

theorem isAsciiAlnum_eq_isLowerAlnum_of_not_upper (ch : Char)
    (h : isUpperAscii ch = false) : isAsciiAlnum ch = isLowerAlnum ch := by
  simp [isAsciiAlnum, h]

/-- Claim C6: `normalize_name` equals the spec pipeline of lower-casing,
removing parenthesized and bracketed substrings, and stripping every
character that is not an ASCII letter or digit; and the empty input yields
the empty key. -/
theorem c6_normalize_matches_spec :
    (∀ name : String, normalize_name name = spec_normalize name) ∧
      normalize_name "" = "" := by
  constructor
  · intro name
    by_cases hempty : name = ""
    · subst hempty
      simp [normalize_name, spec_normalize, scanRemove, scanRemoveAux, pyLower,
        removeGroupsSub, removeGroupsSubF]
    · unfold normalize_name spec_normalize
      rw [if_neg hempty, scanRemove_eq_removeGroupsSub, scanRemove_eq_removeGroupsSub]
      have hfilter :
          ((removeGroupsSub '[' ']'
              (removeGroupsSub '(' ')' (pyLower name).data))).filter isLowerAlnum
          = ((removeGroupsSub '[' ']'
              (removeGroupsSub '(' ')' (pyLower name).data))).filter isAsciiAlnum := by
        apply List.filter_congr
        intro ch hch
        have h1 : ch ∈ removeGroupsSub '(' ')' (pyLower name).data :=
          mem_removeGroupsSub '[' ']' _ _ (Nat.le_refl _) ch hch
        have h2 : ch ∈ (pyLower name).data :=
          mem_removeGroupsSub '(' ')' _ _ (Nat.le_refl _) ch h1
        have h3 : ∃ c0, ch = lowerChar c0 := by
          simp only [pyLower] at h2
          rcases List.mem_map.1 h2 with ⟨c0, _, hc0⟩
          exact ⟨c0, hc0.symm⟩
        rcases h3 with ⟨c0, rfl⟩
        rw [isAsciiAlnum_eq_isLowerAlnum_of_not_upper _ (isUpperAscii_lowerChar c0)]
      rw [hfilter]
  · simp [normalize_name]

/-! ## Alias index (copy_cheats.py lines 29-81) -/

/-- Python whitespace characters stripped by `str.strip` (ASCII range). -/
def pyIsSpace (ch : Char) : Bool :=
  ch = ' ' || ch = '\t' || ch = '\n' || ch = '\r' || ch = '\x0b' || ch = '\x0c'

/-- Python `str.strip()` on a character list. -/
def pyStripChars (l : List Char) : List Char :=
  ((l.dropWhile pyIsSpace).reverse.dropWhile pyIsSpace).reverse

/-- Python `str.strip()`. -/
def pyStrip (s : String) : String := String.mk (pyStripChars s.data)

/-- Model of `re.split` on a single-character class: split the list at every
character satisfying `p`, keeping empty parts (also Python `str.split(sep)`
for a one-character separator). -/
def splitOnPred (p : Char → Bool) : List Char → List (List Char)
  | [] => [[]]
  | ch :: rest =>
    let r := splitOnPred p rest
    if p ch then [] :: r
    else
      match r with
      | [] => [[ch]]
      | h :: t => (ch :: h) :: t

/-- Python `s.startswith('[')`: first-character test. -/
def headIsBracket (s : String) : Bool :=
  match s.data with
  | [] => false
  | ch :: _ => ch = '['

/-- Embedding of `extract_english_names`: split the field on `;`, strip each
part, drop empty parts and parts starting with `[`. -/
def extract_english_names (name_en : String) : List String :=
  if name_en = "" then []
  else
    (((splitOnPred (fun ch => ch = ';') name_en.data).map
        (fun part => String.mk (pyStripChars part)))).filter
      (fun n => n ≠ "" && !(headIsBracket n))

/-- Embedding of `extract_chinese_names`: split the field on `；` or `;`,
strip each part, drop empty parts and parts starting with `[`. -/
def extract_chinese_names (name_cn : String) : List String :=
  if name_cn = "" then []
  else
    (((splitOnPred (fun ch => ch = '；' || ch = ';') name_cn.data).map
        (fun part => String.mk (pyStripChars part)))).filter
      (fun n => n ≠ "" && !(headIsBracket n))

/-- One spreadsheet row: the two locale columns used by
`build_name_mapping` (`row.get` of the other columns is never consulted). -/
structure Row where
  name_cn : String
  name_en : String
deriving DecidableEq, Repr

/-- Python `mapping.setdefault(k, []).extend(vs)` pattern used by
`build_name_mapping`: extend the list at `k`, inserting the key first when
absent (so a fresh key is appended at the end of the dict order). -/
def extendAt (m : List (String × List String)) (k : String) (vs : List String) :
    List (String × List String) :=
  if hasKey m k then m.map (fun p => if p.1 = k then (p.1, p.2 ++ vs) else p)
  else m ++ [(k, vs)]

/-- Processing of one spreadsheet row inside `build_name_mapping`: register
every normalized Chinese name, then every raw Chinese name, each mapping to
the full English-name list of the row; rows without English names are
skipped. -/
def buildRowStep (m : List (String × List String)) (row : Row) :
    List (String × List String) :=
  let chinese_names := extract_chinese_names row.name_cn
  let english_names := extract_english_names row.name_en
  if english_names = [] then m
  else
    let m1 := chinese_names.foldl
      (fun m cn =>
        let normalized := normalize_name cn
        if normalized ≠ "" then extendAt m normalized english_names else m) m
    chinese_names.foldl
      (fun m cn => if cn ≠ "" then extendAt m cn english_names else m) m1

/-- Embedding of `build_name_mapping` (minus the spreadsheet I/O): fold the
data rows into the Chinese-to-English alias index. -/
def build_name_mapping (rows : List Row) : List (String × List String) :=
  rows.foldl buildRowStep []

/-- Candidate-list lookup of `copy_cheats` (lines 154-164): exact
display-name key first, normalized key only when the exact name is absent,
empty list when both are absent. -/
def lookupEnglishNames (m : List (String × List String)) (game_name : String) :
    List String :=
  match lookupS m game_name with
  | some l => l
  | none =>
    match lookupS m (normalize_name game_name) with
    | some l => l
    | none => []

/-! ## find_cheat_file (copy_cheats.py lines 84-118) -/

/-- Model of `os.path.splitext(f)[0]` for a bare filename: cut at the last
dot that has a non-dot character somewhere before it; otherwise the whole
name is the stem. -/
def splitextStem (f : String) : String :=
  let l := f.data
  let dotIdxs := (List.range l.length).filter
    (fun i => l.getD i ' ' = '.' && (List.range i).any (fun j => !(l.getD j ' ' = '.')))
  match dotIdxs.getLast? with
  | some i => String.mk (l.take i)
  | none => f

/-- Normalized key of a cheat filename, as computed inside
`find_cheat_file`: `normalize_name` of the stem. -/
def stemKey (f : String) : String := normalize_name (splitextStem f)

/-- One step of the `cheat_mapping` construction: skip files whose stem
normalizes to the empty key, otherwise assign `d[key] = file` (overwriting
any earlier file with the same key). -/
def cheatMapStep (m : List (String × String)) (f : String) : List (String × String) :=
  if stemKey f = "" then m else dictInsert m (stemKey f) f

/-- The `cheat_mapping` dict of `find_cheat_file`, in insertion order. -/
def cheatMapping (cheat_files : List String) : List (String × String) :=
  cheat_files.foldl cheatMapStep []

/-- Pass 1 of `find_cheat_file`: first candidate whose nonempty normalized
key is a key of the mapping wins. -/
def passExact : List String → List (String × String) → Option String
  | [], _ => none
  | en :: rest, m =>
    if normalize_name en ≠ "" then
      match lookupS m (normalize_name en) with
      | some f => some f
      | none => passExact rest m
    else passExact rest m

/-- Python `s.startswith(pat)` on character lists. -/
def startsWithL : List Char → List Char → Bool
  | _, [] => true
  | [], _ :: _ => false
  | x :: xs, y :: ys => x = y && startsWithL xs ys

/-- Python `s.startswith(pat)` for whole strings. -/
def strStartsWith (s pat : String) : Bool := startsWithL s.data pat.data

/-- Pass 2 of `find_cheat_file`: candidates whose normalized key is empty or
shorter than 5 characters are skipped; otherwise the first mapping entry (in
dict insertion order) whose key starts with the candidate key wins. -/
def passStart : List String → List (String × String) → Option String
  | [], _ => none
  | en :: rest, m =>
    if normalize_name en = "" || (normalize_name en).length < 5 then passStart rest m
    else
      match m.find? (fun p => strStartsWith p.1 (normalize_name en)) with
      | some p => some p.2
      | none => passStart rest m

/-- Embedding of `find_cheat_file`: build the normalized-filename mapping,
then run the exact pass and fall back to the leading-key pass. -/
def find_cheat_file (english_names : List String) (cheat_files : List String) :
    Option String :=
  match passExact english_names (cheatMapping cheat_files) with
  | some f => some f
  | none => passStart english_names (cheatMapping cheat_files)

/-! ## Dict lemmas -/

theorem lookupS_cons_pos {V : Type} (x : String × V) (l : List (String × V)) (k : String)
    (h : x.1 = k) : lookupS (x :: l) k = some x.2 := by
  simp [lookupS, h]

theorem lookupS_cons_neg {V : Type} (x : String × V) (l : List (String × V)) (k : String)
    (h : ¬ x.1 = k) : lookupS (x :: l) k = lookupS l k := by
  simp [lookupS, h]

theorem lookupS_append {V : Type} (l1 l2 : List (String × V)) (k : String) :
    lookupS (l1 ++ l2) k = (lookupS l1 k).or (lookupS l2 k) := by
  unfold lookupS
  rw [List.find?_append]
  cases List.find? (fun p => p.1 = k) l1 <;> simp

theorem hasKey_of_mem_pair {V : Type} (m : List (String × V)) (p : String × V)
    (h : p ∈ m) : hasKey m p.1 = true := by
  unfold hasKey
  rw [List.any_eq_true]
  exact ⟨p, h, by simp⟩

theorem hasKey_of_mem {V : Type} (m : List (String × V)) (k : String) (v : V)
    (h : (k, v) ∈ m) : hasKey m k = true :=
  hasKey_of_mem_pair m (k, v) h

theorem hasKey_cons_elim {V : Type} (p : String × V) (rest : List (String × V)) (k : String)
    (h : hasKey (p :: rest) k = true) (hp : ¬ p.1 = k) : hasKey rest k = true := by
  unfold hasKey at h ⊢
  rw [List.any_eq_true] at h ⊢
  rcases h with ⟨q, hq, hqk⟩
  rcases List.mem_cons.1 hq with h1 | h1
  · subst h1; simp at hqk; exact absurd hqk hp
  · exact ⟨q, h1, hqk⟩

theorem lookupS_update_self {V : Type} (k : String) (v : V) :
    ∀ l : List (String × V), hasKey l k = true →
      lookupS (l.map (fun p => if p.1 = k then (k, v) else p)) k = some v := by
  intro l
  induction l with
  | nil => intro h; simp [hasKey] at h
  | cons p rest ih =>
    intro h
    by_cases hp : p.1 = k
    · have hhead : (if p.1 = k then (k, v) else p) = (k, v) := if_pos hp
      simp only [List.map_cons, hhead]
      rw [lookupS_cons_pos _ _ _ rfl]
    · have hhead : (if p.1 = k then (k, v) else p) = p := if_neg hp
      simp only [List.map_cons, hhead]
      rw [lookupS_cons_neg _ _ _ hp]
      exact ih (hasKey_cons_elim p rest k h hp)

theorem lookupS_update_ne {V : Type} (k0 : String) (v0 : V) (k : String) (hne : k ≠ k0) :
    ∀ l : List (String × V),
      lookupS (l.map (fun p => if p.1 = k0 then (k0, v0) else p)) k = lookupS l k := by
  intro l
  induction l with
  | nil => rfl
  | cons p rest ih =>
    by_cases hp0 : p.1 = k0
    · have hhead : (if p.1 = k0 then (k0, v0) else p) = (k0, v0) := if_pos hp0
      simp only [List.map_cons, hhead]
      rw [lookupS_cons_neg (k0, v0) _ k (fun hc => hne (Eq.symm hc))]
      rw [lookupS_cons_neg p rest k (fun hc => hne (hc.symm.trans hp0))]
      exact ih
    · have hhead : (if p.1 = k0 then (k0, v0) else p) = p := if_neg hp0
      simp only [List.map_cons, hhead]
      by_cases hp : p.1 = k
      · rw [lookupS_cons_pos p _ k hp, lookupS_cons_pos p rest k hp]
      · rw [lookupS_cons_neg p _ k hp, lookupS_cons_neg p rest k hp]
        exact ih

theorem lookupS_dictInsert_self {V : Type} (m : List (String × V)) (k : String) (v : V) :
    lookupS (dictInsert m k v) k = some v := by
  unfold dictInsert
  by_cases hk : hasKey m k
  · rw [if_pos hk]
    exact lookupS_update_self k v m hk
  · rw [if_neg hk, lookupS_append]
    have hfind : m.find? (fun p => p.1 = k) = none := by
      rw [List.find?_eq_none]
      intro p hp hc
      exact hk (by unfold hasKey; rw [List.any_eq_true]; exact ⟨p, hp, hc⟩)
    have hnone : lookupS m k = none := by
      unfold lookupS
      rw [hfind]
      rfl
    rw [hnone, lookupS_cons_pos (k, v) [] k rfl]
    rfl

theorem lookupS_dictInsert_ne {V : Type} (m : List (String × V)) (k k' : String) (v : V)
    (hne : k' ≠ k) : lookupS (dictInsert m k v) k' = lookupS m k' := by
  unfold dictInsert
  by_cases hk : hasKey m k
  · rw [if_pos hk]
    exact lookupS_update_ne k v k' hne m
  · rw [if_neg hk, lookupS_append]
    have : lookupS [(k, v)] k' = none := by
      simp [lookupS]
      exact fun hc => hne hc.symm
    rw [this]
    cases lookupS m k' <;> rfl

theorem mem_dictInsert {V : Type} (m : List (String × V)) (k0 : String) (v0 : V)
    (k : String) (v : V) (h : (k, v) ∈ dictInsert m k0 v0) :
    ((k, v) ∈ m ∧ k ≠ k0) ∨ (k = k0 ∧ v = v0) := by
  unfold dictInsert at h
  by_cases hk : hasKey m k0
  · rw [if_pos hk] at h
    rcases List.mem_map.1 h with ⟨p, hp, hpe⟩
    by_cases hp1 : p.1 = k0
    · rw [if_pos hp1] at hpe
      right
      have h1 : k0 = k := congrArg Prod.fst hpe
      have h2 : v0 = v := congrArg Prod.snd hpe
      exact ⟨h1.symm, h2.symm⟩
    · rw [if_neg hp1] at hpe
      subst hpe
      exact Or.inl ⟨hp, hp1⟩
  · rw [if_neg hk] at h
    rcases List.mem_append.1 h with h1 | h1
    · left
      refine ⟨h1, fun hc => ?_⟩
      subst hc
      exact hk (hasKey_of_mem m k v h1)
    · right
      simp only [List.mem_singleton] at h1
      exact ⟨congrArg Prod.fst h1, congrArg Prod.snd h1⟩

theorem keysOf_dictInsert {V : Type} (m : List (String × V)) (k : String) (v : V) :
    keysOf (dictInsert m k v) = if hasKey m k then keysOf m else keysOf m ++ [k] := by
  unfold dictInsert
  by_cases hk : hasKey m k
  · rw [if_pos hk, if_pos hk]
    unfold keysOf
    rw [List.map_map]
    apply List.map_congr_left
    intro p _
    by_cases hp : p.1 = k
    · simp [hp]
    · simp [hp]
  · rw [if_neg hk, if_neg hk]
    simp [keysOf]

theorem nodup_keysOf_dictInsert {V : Type} (m : List (String × V)) (k : String) (v : V)
    (h : (keysOf m).Nodup) : (keysOf (dictInsert m k v)).Nodup := by
  rw [keysOf_dictInsert]
  by_cases hk : hasKey m k
  · rw [if_pos hk]; exact h
  · rw [if_neg hk]
    rw [List.nodup_append]
    refine ⟨h, List.nodup_singleton k, ?_⟩
    intro a ha hb
    simp only [List.mem_singleton] at hb
    subst hb
    simp only [keysOf, List.mem_map] at ha
    rcases ha with ⟨p, hp, hpa⟩
    exact hk (hpa ▸ hasKey_of_mem_pair m p hp)

theorem lookupS_of_mem_of_nodup {V : Type} (m : List (String × V)) (k : String) (v : V)
    (hnd : (keysOf m).Nodup) (h : (k, v) ∈ m) : lookupS m k = some v := by
  induction m with
  | nil => simp at h
  | cons p rest ih =>
    have hnd2 : (keysOf rest).Nodup := by
      simp only [keysOf, List.map_cons, List.nodup_cons] at hnd
      exact hnd.2
    rcases List.mem_cons.1 h with h1 | h1
    · subst h1
      exact lookupS_cons_pos _ _ _ rfl
    · have hk : ¬ p.1 = k := by
        intro hc
        have hkm : k ∈ keysOf rest := by
          simp only [keysOf, List.mem_map]
          exact ⟨(k, v), h1, rfl⟩
        simp only [keysOf, List.map_cons, List.nodup_cons, hc] at hnd
        exact hnd.1 hkm
      rw [lookupS_cons_neg p rest k hk]
      exact ih hnd2 h1

/-! ## Claim C1 -/

/-- Claim C1 counterexample: two spreadsheet rows with distinct raw Chinese
names that share a normalized key.  The exact-name lookup for `game-1`
yields only that row's English list, while the normalized-key lookup yields
the merged list, and `find_cheat_file` differs on the two lists. -/
theorem c1_counterexample :
    lookupS (build_name_mapping [⟨"game-1", "Alpha"⟩, ⟨"game 1", "Beta"⟩]) "game-1"
        = some ["Alpha"]
    ∧ lookupS (build_name_mapping [⟨"game-1", "Alpha"⟩, ⟨"game 1", "Beta"⟩])
        (normalize_name "game-1") = some ["Alpha", "Beta"]
    ∧ find_cheat_file ["Alpha"] ["Beta.cht"] = none
    ∧ find_cheat_file ["Alpha", "Beta"] ["Beta.cht"] = some "Beta.cht" := by
  constructor
  · decide
  · constructor
    · decide
    · constructor <;> decide

/-- Claim C1 (amended): the importer resolves a catalog entry through the
exact display-name key whenever it is present, and consults the
normalized key only when the exact name is absent from the alias index;
the two lookups are not guaranteed to agree. -/
theorem c1_exact_lookup_priority (m : List (String × List String)) (game_name : String) :
    (∀ l, lookupS m game_name = some l → lookupEnglishNames m game_name = l)
    ∧ (lookupS m game_name = none →
        lookupEnglishNames m game_name =
          match lookupS m (normalize_name game_name) with
          | some l => l
          | none => []) := by
  constructor
  · intro l h
    simp [lookupEnglishNames, h]
  · intro h
    simp [lookupEnglishNames, h]

/-- Witness for the amended C1 at a concrete index. -/
theorem c1_exact_lookup_priority_witness :
    lookupS [("a", ["X"])] "a" = some ["X"]
    ∧ lookupEnglishNames [("a", ["X"])] "a" = ["X"] :=
  ⟨by decide, (c1_exact_lookup_priority [("a", ["X"])] "a").1 ["X"] (by decide)⟩

/-! ## Claim C5 -/

theorem passStart_none_of_short (m : List (String × String)) :
    ∀ names : List String, (∀ nn ∈ names, (normalize_name nn).length < 5) →
      passStart names m = none := by
  intro names
  induction names with
  | nil => intro _; rfl
  | cons en rest ih =>
    intro h
    have hen : (normalize_name en).length < 5 := h en (List.mem_cons_self _ _)
    rw [passStart, if_pos (by simp [hen])]
    exact ih (fun nn hnn => h nn (List.mem_cons_of_mem _ hnn))

/-- Claim C5: when every candidate normalized key is shorter than 5
characters, `find_cheat_file` is exactly its Pass-1 result (the subsequent
passes contribute nothing), so an entry whose candidates all fail Pass 1 is
unmatched instead of getting a leading-key hit. -/
theorem c5_short_keys_skip_pass2 (english_names cheat_files : List String)
    (hshort : ∀ nn ∈ english_names, (normalize_name nn).length < 5) :
    find_cheat_file english_names cheat_files
        = passExact english_names (cheatMapping cheat_files)
    ∧ (passExact english_names (cheatMapping cheat_files) = none →
        find_cheat_file english_names cheat_files = none) := by
  have hps : passStart english_names (cheatMapping cheat_files) = none :=
    passStart_none_of_short _ english_names hshort
  have key : find_cheat_file english_names cheat_files
      = passExact english_names (cheatMapping cheat_files) := by
    unfold find_cheat_file
    cases he : passExact english_names (cheatMapping cheat_files) with
    | none => simp [hps]
    | some f => rfl
  exact ⟨key, fun he => by rw [key, he]⟩

/-- Witness for C5: a two-letter candidate whose key is a strict leading
part of the only cheat filename key still yields no match. -/
theorem c5_witness :
    (∀ nn ∈ ["ab"], (normalize_name nn).length < 5)
    ∧ find_cheat_file ["ab"] ["abcdef.cht"] = none :=
  ⟨by decide, (c5_short_keys_skip_pass2 ["ab"] ["abcdef.cht"] (by decide)).2 (by decide)⟩

/-! ## Claim C9 -/

/-- Last file of the list whose normalized stem is `k` (search the reversed
list for the first hit). -/
def lastWithStem (k : String) (files : List String) : Option String :=
  files.reverse.find? (fun f => stemKey f = k)

theorem lastWithStem_cons (k x : String) (l : List String) :
    lastWithStem k (x :: l)
      = (lastWithStem k l).or (if stemKey x = k then some x else none) := by
  unfold lastWithStem
  rw [List.reverse_cons, List.find?_append]
  congr 1
  by_cases hx : stemKey x = k <;> simp [List.find?, hx]

theorem lastWithStem_append (k : String) (l1 l2 : List String) :
    lastWithStem k (l1 ++ l2) = (lastWithStem k l2).or (lastWithStem k l1) := by
  unfold lastWithStem
  rw [List.reverse_append, List.find?_append]

theorem lastWithStem_mem (k : String) (l : List String) (g : String)
    (h : lastWithStem k l = some g) : g ∈ l := by
  unfold lastWithStem at h
  exact List.mem_reverse.1 (List.mem_of_find?_eq_some h)

theorem lookupS_cheatMapping_fold (k : String) (hk : k ≠ "") :
    ∀ (files : List String) (m : List (String × String)),
      lookupS (files.foldl cheatMapStep m) k =
        match lastWithStem k files with
        | some f => some f
        | none => lookupS m k := by
  intro files
  induction files with
  | nil => intro m; simp [lastWithStem]
  | cons f rest ih =>
    intro m
    rw [List.foldl_cons, ih]
    cases hr : lastWithStem k rest with
    | some g =>
      have hall : lastWithStem k (f :: rest) = some g := by
        rw [lastWithStem_cons, hr]
        rfl
      rw [hall]
    | none =>
      by_cases hf : stemKey f = k
      · have hall : lastWithStem k (f :: rest) = some f := by
          rw [lastWithStem_cons, hr, if_pos hf]
          rfl
        rw [hall]
        unfold cheatMapStep
        rw [if_neg (show ¬ stemKey f = "" by rw [hf]; exact hk), hf]
        exact lookupS_dictInsert_self m k f
      · have hall : lastWithStem k (f :: rest) = none := by
          rw [lastWithStem_cons, hr, if_neg hf]
          rfl
        rw [hall]
        unfold cheatMapStep
        by_cases hz : stemKey f = ""
        · rw [if_pos hz]
        · rw [if_neg hz]
          exact lookupS_dictInsert_ne m (stemKey f) k f (fun hc => hf hc.symm)

theorem mem_cheatMapping_fold :
    ∀ (files : List String) (m : List (String × String)) (k v : String),
      (k, v) ∈ files.foldl cheatMapStep m →
      (k, v) ∈ m ∨ (k = stemKey v ∧ k ≠ "" ∧ v ∈ files) := by
  intro files
  induction files with
  | nil => intro m k v h; exact Or.inl h
  | cons f rest ih =>
    intro m k v h
    rw [List.foldl_cons] at h
    rcases ih (cheatMapStep m f) k v h with h1 | h1
    · unfold cheatMapStep at h1
      by_cases hz : stemKey f = ""
      · rw [if_pos hz] at h1
        exact Or.inl h1
      · rw [if_neg hz] at h1
        rcases mem_dictInsert m (stemKey f) f k v h1 with ⟨h2, _⟩ | ⟨h2, h3⟩
        · exact Or.inl h2
        · subst h3
          exact Or.inr ⟨h2, fun hc => hz (h2.symm.trans hc), List.mem_cons_self _ _⟩
    · exact Or.inr ⟨h1.1, h1.2.1, List.mem_cons_of_mem _ h1.2.2⟩

theorem nodup_keysOf_cheatMapping :
    ∀ (files : List String) (m : List (String × String)), (keysOf m).Nodup →
      (keysOf (files.foldl cheatMapStep m)).Nodup := by
  intro files
  induction files with
  | nil => intro m h; exact h
  | cons f rest ih =>
    intro m h
    rw [List.foldl_cons]
    apply ih
    unfold cheatMapStep
    by_cases hz : stemKey f = ""
    · rw [if_pos hz]; exact h
    · rw [if_neg hz]; exact nodup_keysOf_dictInsert m _ f h

theorem lookupS_some_mem {V : Type} (m : List (String × V)) (k : String) (v : V)
    (h : lookupS m k = some v) : (k, v) ∈ m := by
  unfold lookupS at h
  cases hf : m.find? (fun p => p.1 = k) with
  | none => rw [hf] at h; simp at h
  | some p =>
    rw [hf] at h
    have hpv : p.2 = v := Option.some.inj h
    have h1 : p.1 = k := by simpa using List.find?_some hf
    have h2 : p ∈ m := List.mem_of_find?_eq_some hf
    have h3 : (k, v) = p := Prod.ext h1.symm hpv.symm
    rw [h3]
    exact h2

theorem passExact_mem (m : List (String × String)) :
    ∀ (names : List String) (v : String), passExact names m = some v →
      ∃ kk, lookupS m kk = some v := by
  intro names
  induction names with
  | nil => intro v h; simp [passExact] at h
  | cons en rest ih =>
    intro v h
    rw [passExact] at h
    by_cases hz : normalize_name en ≠ ""
    · rw [if_pos hz] at h
      cases hl : lookupS m (normalize_name en) with
      | some f =>
        rw [hl] at h
        exact ⟨normalize_name en, by rw [hl]; exact h⟩
      | none =>
        rw [hl] at h
        exact ih v h
    · rw [if_neg hz] at h
      exact ih v h

theorem passStart_mem (m : List (String × String)) :
    ∀ (names : List String) (v : String), passStart names m = some v →
      ∃ p, p ∈ m ∧ p.2 = v := by
  intro names
  induction names with
  | nil => intro v h; simp [passStart] at h
  | cons en rest ih =>
    intro v h
    rw [passStart] at h
    by_cases hc : (normalize_name en = "" || decide ((normalize_name en).length < 5)) = true
    · rw [if_pos hc] at h
      exact ih v h
    · rw [if_neg hc] at h
      cases hf : m.find? (fun p => strStartsWith p.1 (normalize_name en)) with
      | some p =>
        rw [hf] at h
        exact ⟨p, List.mem_of_find?_eq_some hf, Option.some.inj h⟩
      | none =>
        rw [hf] at h
        exact ih v h

theorem find_cheat_file_mem_mapping (english_names cheat_files : List String) (v : String)
    (h : find_cheat_file english_names cheat_files = some v) :
    lookupS (cheatMapping cheat_files) (stemKey v) = some v ∧ stemKey v ≠ "" := by
  have hnodup : (keysOf (cheatMapping cheat_files)).Nodup :=
    nodup_keysOf_cheatMapping cheat_files [] (by simp [keysOf])
  have hpair : ∃ kk, (kk, v) ∈ cheatMapping cheat_files := by
    unfold find_cheat_file at h
    cases hp : passExact english_names (cheatMapping cheat_files) with
    | some f =>
      rw [hp] at h
      have hfv : f = v := Option.some.inj h
      rcases passExact_mem _ english_names f hp with ⟨kk, hkk⟩
      exact ⟨kk, hfv ▸ lookupS_some_mem _ kk f hkk⟩
    | none =>
      rw [hp] at h
      rcases passStart_mem _ english_names v h with ⟨p, hpm, hpv⟩
      refine ⟨p.1, ?_⟩
      rw [← hpv]
      simpa using hpm
  rcases hpair with ⟨kk, hkk⟩
  rcases mem_cheatMapping_fold cheat_files [] kk v hkk with h1 | ⟨h1, h2, _⟩
  · simp at h1
  · constructor
    · rw [← h1]
      exact lookupS_of_mem_of_nodup _ kk v hnodup hkk
    · rw [← h1]
      exact h2

/-- Claim C9: in the normalized-filename index, a later cheat file with the
same normalized stem silently replaces an earlier one, and the earlier file
can never be returned by `find_cheat_file`. -/
theorem c9_later_file_shadows_earlier
    (english_names pre mid post : List String) (f1 f2 : String)
    (hstem : stemKey f1 = stemKey f2) (hne : stemKey f1 ≠ "")
    (hnotin : f1 ∉ mid ++ f2 :: post) :
    lookupS (cheatMapping (pre ++ f1 :: mid ++ f2 :: post)) (stemKey f1) ≠ some f1
    ∧ find_cheat_file english_names (pre ++ f1 :: mid ++ f2 :: post) ≠ some f1 := by
  have h2 : ∃ g0, lastWithStem (stemKey f1) (f2 :: post) = some g0 ∧ g0 ∈ f2 :: post := by
    rw [lastWithStem_cons, if_pos hstem.symm]
    cases hp : lastWithStem (stemKey f1) post with
    | some g =>
      exact ⟨g, rfl, List.mem_cons_of_mem _ (lastWithStem_mem _ post g hp)⟩
    | none => exact ⟨f2, rfl, List.mem_cons_self _ _⟩
  rcases h2 with ⟨g0, hg0, hg0mem⟩
  have hall : lastWithStem (stemKey f1) (pre ++ f1 :: mid ++ f2 :: post) = some g0 := by
    rw [lastWithStem_append, hg0]
    rfl
  have hlook : lookupS (cheatMapping (pre ++ f1 :: mid ++ f2 :: post)) (stemKey f1)
      = some g0 := by
    have hfold := lookupS_cheatMapping_fold (stemKey f1) hne
      (pre ++ f1 :: mid ++ f2 :: post) []
    rw [hall] at hfold
    exact hfold
  have hgne : g0 ≠ f1 := by
    intro hc
    subst hc
    exact hnotin (List.mem_append_right mid hg0mem)
  constructor
  · rw [hlook]
    intro hc
    exact hgne (Option.some.inj hc)
  · intro hc
    have hm := find_cheat_file_mem_mapping english_names _ f1 hc
    exact hgne (Option.some.inj (hm.1.symm.trans hlook)).symm

/-- Witness for C9: two cheat files whose stems both normalize to `aaaa`;
the earlier file is shadowed and never returned. -/
theorem c9_witness :
    stemKey "Aaaa.cht" = stemKey "AAAA.cht"
    ∧ stemKey "Aaaa.cht" ≠ ""
    ∧ "Aaaa.cht" ∉ ([] ++ "AAAA.cht" :: ([] : List String))
    ∧ lookupS (cheatMapping ([] ++ "Aaaa.cht" :: [] ++ "AAAA.cht" :: []))
        (stemKey "Aaaa.cht") ≠ some "Aaaa.cht"
    ∧ find_cheat_file ["aaaa"] ([] ++ "Aaaa.cht" :: [] ++ "AAAA.cht" :: [])
        ≠ some "Aaaa.cht" := by
  have h := c9_later_file_shadows_earlier ["aaaa"] [] [] [] "Aaaa.cht" "AAAA.cht"
    (by decide) (by decide) (by decide)
  exact ⟨by decide, by decide, by decide, h.1, h.2⟩

/-! ## copy_cheats main loop (copy_cheats.py lines 121-205)

The loop is modelled over the list of catalog display names (the only field
`copy_cheats` reads from each game is `game.get('name', '')`), and the file
system is modelled as the ordered list of operations the run performs:
`os.makedirs` on the output directory, `shutil.copy2` calls, and the final
unconditional write of the unmatched report.
-/

/-- One `copied_files` record (`english_names` keeps only the first three,
as in the script). -/
structure CopyRecord where
  game_name : String
  source : String
  english_names : List String
deriving DecidableEq, Repr

/-- Loop body of `copy_cheats` for one game name: empty names are skipped
entirely; otherwise the alias lists are consulted and `find_cheat_file` runs
only when a candidate list was found.  A found (truthy) filename adds a copy
record, anything else adds the name to `not_found`. -/
def copyGameStep (m : List (String × List String)) (cheat_files : List String)
    (acc : List CopyRecord × List String) (game_name : String) :
    List CopyRecord × List String :=
  if game_name = "" then acc
  else
    match (if lookupEnglishNames m game_name ≠ [] then
            find_cheat_file (lookupEnglishNames m game_name) cheat_files
           else none) with
    | some f =>
      if f ≠ "" then
        (acc.1 ++ [⟨game_name, f, (lookupEnglishNames m game_name).take 3⟩], acc.2)
      else (acc.1, acc.2 ++ [game_name])
    | none => (acc.1, acc.2 ++ [game_name])

/-- The whole `copy_cheats` loop: copied records and unmatched names, in
iteration order. -/
def copyCheatsRun (game_names : List String) (m : List (String × List String))
    (cheat_files : List String) : List CopyRecord × List String :=
  game_names.foldl (copyGameStep m cheat_files) ([], [])

/-- File-system side effects of one `copy_cheats` run. -/
inductive FsEvent where
  | mkdirOutput : FsEvent
  | copyFile (src dst : String) : FsEvent
  | writeReport (lines : List String) : FsEvent
deriving DecidableEq, Repr

/-- Ordered file-system effects of `copy_cheats`: the output directory is
created and matches are copied only when not in dry-run mode, while the
unmatched report is written unconditionally at the end (the destination
name is the catalog display name plus `.cht`). -/
def copyCheatsEvents (game_names : List String) (m : List (String × List String))
    (cheat_files : List String) (dry_run : Bool) : List FsEvent :=
  (if dry_run then [] else [FsEvent.mkdirOutput]) ++
  (if dry_run then []
   else (copyCheatsRun game_names m cheat_files).1.map
     (fun r => FsEvent.copyFile r.source (r.game_name ++ ".cht"))) ++
  [FsEvent.writeReport (copyCheatsRun game_names m cheat_files).2]

/-! ## Claim C3 -/

/-- Claim C3 counterexample: a dry run over a catalog with one unmatched
game still writes the unmatched report, so the event list is not empty. -/
theorem c3_counterexample :
    copyCheatsEvents ["SomeGame"] [] [] true = [FsEvent.writeReport ["SomeGame"]]
    ∧ copyCheatsEvents ["SomeGame"] [] [] true ≠ [] := by
  constructor
  · decide
  · decide

/-- Claim C3 (amended): in dry-run mode the Importer creates no output
directory and copies no cheat file - its only file-system effect is the
unconditional write of the unmatched report. -/
theorem c3_dry_run_only_report (game_names : List String)
    (m : List (String × List String)) (cheat_files : List String) :
    copyCheatsEvents game_names m cheat_files true
      = [FsEvent.writeReport (copyCheatsRun game_names m cheat_files).2] := by
  rfl

/-! ## Catalog Annotator (add_cheats_field.py lines 13-68)

A catalog entry is an insertion-ordered JSON object; values are modelled by
a small JSON value type (the scripts only ever inspect string values).
-/

/-- JSON scalar values of a catalog entry. -/
inductive JVal where
  | jstr (s : String)
  | jnum (n : Int)
  | jbool (b : Bool)
  | jnull
deriving DecidableEq, Repr

/-- One catalog entry: the ordered field list of the JSON object. -/
abbrev Game := List (String × JVal)

/-- Python `game.get('name', '')` as used for the stem comparison:
`some s` for a string name, `some ""` when the field is missing, and `none`
for a non-string value (which can never equal a filename stem). -/
def getNameStr (game : Game) : Option String :=
  match (game.find? (fun p => p.1 = "name")).map Prod.snd with
  | some (JVal.jstr s) => some s
  | some _ => none
  | none => some ""

/-- The `cheats` value computed for one entry: the reference path when the
name equals the stem of a present cheat file, the empty-string sentinel
otherwise (`cht_files` is the set of stems of the `.cht` files). -/
def cheatsValue (cht_files : List String) (game : Game) : String :=
  match getNameStr game with
  | some s => if cht_files.contains s then "/cheats/" ++ s ++ ".cht" else ""
  | none => ""

/-- One iteration of the rebuild loop of `add_cheats_field`: when the key is
`description`, first assign `new_game['cheats'] = cheats_value`, then copy
the field itself. -/
def rebuildStep (cv : JVal) (acc : Game) (p : String × JVal) : Game :=
  dictInsert (if p.1 = "description" then dictInsert acc "cheats" cv else acc) p.1 p.2

/-- The entry rebuild of `add_cheats_field`: copy the fields in order,
inserting `cheats` right before `description`, and append `cheats` at the
end when the loop never inserted it. -/
def rebuild (cv : JVal) (game : Game) : Game :=
  if hasKey (game.foldl (rebuildStep cv) []) "cheats" then game.foldl (rebuildStep cv) []
  else game.foldl (rebuildStep cv) [] ++ [("cheats", cv)]

/-- Annotation of one catalog entry by `add_cheats_field`. -/
def annotateGame (cht_files : List String) (game : Game) : Game :=
  rebuild (JVal.jstr (cheatsValue cht_files game)) game

/-- Embedding of `add_cheats_field` on the `games` list (`cht_files` is the
stem set of the cheats directory; the JSON I/O around it is not modelled). -/
def add_cheats_field (cht_files : List String) (games : List Game) : List Game :=
  games.map (annotateGame cht_files)

/-! ## Claim C2 -/

/-- Claim C2 counterexample: with only `supermariobros.cht` on disk, the
entry named `Super Mario Bros` does NOT match (stem comparison is exact), so
`cheats` is the empty string, not `/cheats/Super Mario Bros.cht`. -/
theorem c2_counterexample :
    annotateGame ["supermariobros"]
        [("name", JVal.jstr "Super Mario Bros"),
         ("description", JVal.jstr "classic platformer")]
      = [("name", JVal.jstr "Super Mario Bros"),
         ("cheats", JVal.jstr ""),
         ("description", JVal.jstr "classic platformer")]
    ∧ lookupS (annotateGame ["supermariobros"]
        [("name", JVal.jstr "Super Mario Bros"),
         ("description", JVal.jstr "classic platformer")]) "cheats"
      ≠ some (JVal.jstr "/cheats/Super Mario Bros.cht") := by
  constructor
  · decide
  · decide

/-- Claim C2 (amended): the example only matches when the cheat-file stem
equals the display name exactly.  With `Super Mario Bros.cht` on disk the
output has field order `name, cheats, description` and
`cheats = /cheats/Super Mario Bros.cht`; with only `supermariobros.cht` the
entry gets the empty-string sentinel (same field order). -/
theorem c2_exact_stem_example :
    annotateGame ["Super Mario Bros"]
        [("name", JVal.jstr "Super Mario Bros"),
         ("description", JVal.jstr "classic platformer")]
      = [("name", JVal.jstr "Super Mario Bros"),
         ("cheats", JVal.jstr "/cheats/Super Mario Bros.cht"),
         ("description", JVal.jstr "classic platformer")]
    ∧ annotateGame ["supermariobros"]
        [("name", JVal.jstr "Super Mario Bros"),
         ("description", JVal.jstr "classic platformer")]
      = [("name", JVal.jstr "Super Mario Bros"),
         ("cheats", JVal.jstr ""),
         ("description", JVal.jstr "classic platformer")] := by
  constructor
  · decide
  · decide

/-! ## Claim C4 -/

/-- True when the entry carries a `cheats` field positioned after a
`description` field (the shape on which the rebuild is not idempotent). -/
def cheatsAfterDescr : Game → Bool
  | [] => false
  | p :: rest => if p.1 = "description" then hasKey rest "cheats" else cheatsAfterDescr rest

theorem hasKey_cons {V : Type} (p : String × V) (l : List (String × V)) (k : String) :
    hasKey (p :: l) k = (decide (p.1 = k) || hasKey l k) := by
  simp [hasKey]

theorem hasKey_append {V : Type} (l1 l2 : List (String × V)) (k : String) :
    hasKey (l1 ++ l2) k = (hasKey l1 k || hasKey l2 k) := by
  simp [hasKey, List.any_append]

theorem keysOf_append {V : Type} (l1 l2 : List (String × V)) :
    keysOf (l1 ++ l2) = keysOf l1 ++ keysOf l2 := by
  simp [keysOf]

theorem hasKey_eq_true_iff {V : Type} (m : List (String × V)) (k : String) :
    hasKey m k = true ↔ k ∈ keysOf m := by
  unfold hasKey keysOf
  rw [List.any_eq_true, List.mem_map]
  constructor
  · rintro ⟨p, hp, hpk⟩
    exact ⟨p, hp, by simpa using hpk⟩
  · rintro ⟨p, hp, hpk⟩
    exact ⟨p, hp, by simpa using hpk⟩

theorem hasKey_map_update {V : Type} (k k' : String) (v : V) :
    ∀ m : List (String × V),
      hasKey (m.map (fun p => if p.1 = k then (k, v) else p)) k' = hasKey m k' := by
  intro m
  induction m with
  | nil => rfl
  | cons p rest ih =>
    have hhead : ((if p.1 = k then (k, v) else p).1) = p.1 := by
      by_cases hp : p.1 = k
      · rw [if_pos hp, hp]
      · rw [if_neg hp]
    rw [List.map_cons, hasKey_cons, hasKey_cons, hhead, ih]

theorem hasKey_dictInsert {V : Type} (m : List (String × V)) (k k' : String) (v : V) :
    hasKey (dictInsert m k v) k' = (hasKey m k' || decide (k = k')) := by
  unfold dictInsert
  by_cases hk : hasKey m k
  · rw [if_pos hk, hasKey_map_update]
    by_cases hkk : k = k'
    · subst hkk
      rw [hk]
      simp
    · simp [hkk]
  · rw [if_neg hk, hasKey_append, hasKey_cons]
    have : hasKey ([] : List (String × V)) k' = false := rfl
    rw [this]
    simp

theorem dictInsert_fresh {V : Type} (m : List (String × V)) (k : String) (v : V)
    (h : hasKey m k = false) : dictInsert m k v = m ++ [(k, v)] := by
  unfold dictInsert
  rw [if_neg (by simp [h])]

theorem foldl_dictInsert_fresh {V : Type} :
    ∀ (l : List (String × V)) (acc : List (String × V)),
      (keysOf l).Nodup → (∀ k ∈ keysOf l, hasKey acc k = false) →
      l.foldl (fun a p => dictInsert a p.1 p.2) acc = acc ++ l := by
  intro l
  induction l with
  | nil => intro acc _ _; simp
  | cons p rest ih =>
    intro acc hnd hfresh
    have hp1 : p.1 ∈ keysOf (p :: rest) := by
      simp [keysOf]
    have hndr : (keysOf rest).Nodup := by
      have : keysOf (p :: rest) = p.1 :: keysOf rest := rfl
      rw [this, List.nodup_cons] at hnd
      exact hnd.2
    have hp1r : p.1 ∉ keysOf rest := by
      have : keysOf (p :: rest) = p.1 :: keysOf rest := rfl
      rw [this, List.nodup_cons] at hnd
      exact hnd.1
    rw [List.foldl_cons, dictInsert_fresh acc p.1 p.2 (hfresh p.1 hp1), Prod.mk.eta]
    rw [ih (acc ++ [p]) hndr ?fresh]
    · rw [List.append_assoc]
      rfl
    case fresh =>
      intro k hk
      rw [hasKey_append, hasKey_cons]
      have h1 : hasKey acc k = false := hfresh k (List.mem_cons_of_mem _ hk)
      have h2 : ¬ p.1 = k := fun hc => hp1r (hc ▸ hk)
      have h3 : hasKey ([] : List (String × V)) k = false := rfl
      rw [h1, h3]
      simp [h2]

theorem foldl_rebuildStep_no_desc (cv : JVal) :
    ∀ (l : Game) (acc : Game), (∀ p ∈ l, ¬ p.1 = "description") →
      l.foldl (rebuildStep cv) acc = l.foldl (fun a p => dictInsert a p.1 p.2) acc := by
  intro l
  induction l with
  | nil => intro acc _; rfl
  | cons p rest ih =>
    intro acc h
    rw [List.foldl_cons, List.foldl_cons]
    have hstep : rebuildStep cv acc p = dictInsert acc p.1 p.2 := by
      unfold rebuildStep
      rw [if_neg (h p (List.mem_cons_self _ _))]
    rw [hstep]
    exact ih _ (fun q hq => h q (List.mem_cons_of_mem _ hq))

theorem no_desc_of_hasKey_false {V : Type} (l : List (String × V))
    (h : hasKey l "description" = false) : ∀ p ∈ l, ¬ p.1 = "description" := by
  intro p hp hc
  have : hasKey l "description" = true := hc ▸ hasKey_of_mem_pair l p hp
  rw [h] at this
  exact Bool.false_ne_true this

theorem rebuild_no_desc (cv : JVal) (g : Game) (hnd : (keysOf g).Nodup)
    (hdesc : hasKey g "description" = false) :
    rebuild cv g = if hasKey g "cheats" then g else g ++ [("cheats", cv)] := by
  have hfold : g.foldl (rebuildStep cv) [] = g := by
    rw [foldl_rebuildStep_no_desc cv g [] (no_desc_of_hasKey_false g hdesc),
      foldl_dictInsert_fresh g [] hnd (fun k _ => rfl)]
    rfl
  unfold rebuild
  rw [hfold]

theorem rebuild_with_desc (cv : JVal) (pre post : Game) (d : JVal)
    (hnd : (keysOf (pre ++ ("description", d) :: post)).Nodup)
    (hpre : hasKey pre "description" = false)
    (hpost : hasKey post "cheats" = false) :
    rebuild cv (pre ++ ("description", d) :: post)
      = dictInsert pre "cheats" cv ++ ("description", d) :: post := by
  have hkeys : keysOf (pre ++ ("description", d) :: post)
      = keysOf pre ++ "description" :: keysOf post := by
    rw [keysOf_append]
    rfl
  rw [hkeys] at hnd
  have hndpre : (keysOf pre).Nodup := (List.nodup_append.1 hnd).1
  have hndpost : (keysOf post).Nodup := by
    have h2 := (List.nodup_append.1 hnd).2.1
    rw [List.nodup_cons] at h2
    exact h2.2
  have hdescpost : "description" ∉ keysOf post := by
    have h2 := (List.nodup_append.1 hnd).2.1
    rw [List.nodup_cons] at h2
    exact h2.1
  have hdisj : ∀ k ∈ keysOf post, k ∉ keysOf pre := by
    intro k hk hc
    exact (List.nodup_append.1 hnd).2.2 hc (List.mem_cons_of_mem _ hk)
  have hcheatspost : "cheats" ∉ keysOf post := by
    intro hc
    have : hasKey post "cheats" = true := (hasKey_eq_true_iff post "cheats").2 hc
    rw [hpost] at this
    exact Bool.false_ne_true this
  -- fold over pre is a pure copy
  have hfoldpre : pre.foldl (rebuildStep cv) [] = pre := by
    rw [foldl_rebuildStep_no_desc cv pre [] (no_desc_of_hasKey_false pre hpre),
      foldl_dictInsert_fresh pre [] hndpre (fun k _ => rfl)]
    rfl
  -- the description step
  have hAdesc : hasKey (dictInsert pre "cheats" cv) "description" = false := by
    rw [hasKey_dictInsert, hpre]
    simp
  have hstepdesc : rebuildStep cv pre ("description", d)
      = dictInsert pre "cheats" cv ++ [("description", d)] := by
    unfold rebuildStep
    rw [if_pos rfl]
    exact dictInsert_fresh _ "description" d hAdesc
  -- fold over post is a pure copy on top of that
  have hfoldpost : post.foldl (rebuildStep cv)
      (dictInsert pre "cheats" cv ++ [("description", d)])
      = dictInsert pre "cheats" cv ++ ("description", d) :: post := by
    rw [foldl_rebuildStep_no_desc cv post _ (fun p hp hc => hdescpost (by
      rw [← hc]
      exact (hasKey_eq_true_iff post p.1).1 (hasKey_of_mem_pair post p hp)))]
    rw [foldl_dictInsert_fresh post _ hndpost ?fresh]
    · rw [List.append_assoc]
      rfl
    case fresh =>
      intro k hk
      rw [hasKey_append, hasKey_dictInsert, hasKey_cons]
      have h1 : hasKey pre k = false := by
        cases hca : hasKey pre k
        · rfl
        · exact absurd ((hasKey_eq_true_iff pre k).1 hca) (hdisj k hk)
      have h2 : ¬ ("cheats" = k) := fun hc => hcheatspost (hc ▸ hk)
      have h3 : ¬ (("description", d).1 = k) := by
        intro hc
        have hkd : k = "description" := by simpa using hc.symm
        exact hdescpost (hkd ▸ hk)
      have h4 : hasKey ([] : Game) k = false := rfl
      rw [h1, h4]
      simp [h2, h3]
  have hfold : (pre ++ ("description", d) :: post).foldl (rebuildStep cv) []
      = dictInsert pre "cheats" cv ++ ("description", d) :: post := by
    rw [List.foldl_append, hfoldpre, List.foldl_cons, hstepdesc, hfoldpost]
  have hkcheats : hasKey (dictInsert pre "cheats" cv ++ ("description", d) :: post)
      "cheats" = true := by
    rw [hasKey_append, hasKey_dictInsert]
    simp
  unfold rebuild
  rw [hfold, if_pos hkcheats]

theorem exists_first_desc (g : Game) (h : hasKey g "description" = true) :
    ∃ pre d post, g = pre ++ ("description", d) :: post
      ∧ hasKey pre "description" = false := by
  induction g with
  | nil => simp [hasKey] at h
  | cons p rest ih =>
    by_cases hp : p.1 = "description"
    · refine ⟨[], p.2, rest, ?_, rfl⟩
      have : p = ("description", p.2) := Prod.ext hp rfl
      rw [← this]
      rfl
    · rcases ih (hasKey_cons_elim p rest "description" h hp) with ⟨pre, d, post, hg, hpre⟩
      refine ⟨p :: pre, d, post, by rw [hg]; rfl, ?_⟩
      rw [hasKey_cons, hpre]
      simp [hp]

theorem cheatsAfterDescr_split (d : JVal) :
    ∀ (pre post : Game), hasKey pre "description" = false →
      cheatsAfterDescr (pre ++ ("description", d) :: post) = hasKey post "cheats" := by
  intro pre
  induction pre with
  | nil =>
    intro post _
    show cheatsAfterDescr (("description", d) :: post) = _
    unfold cheatsAfterDescr
    rw [if_pos rfl]
  | cons p rest ih =>
    intro post hpre
    have hp : ¬ p.1 = "description" := by
      intro hc
      rw [hasKey_cons] at hpre
      simp [hc] at hpre
    show cheatsAfterDescr (p :: (rest ++ ("description", d) :: post)) = _
    unfold cheatsAfterDescr
    rw [if_neg hp]
    apply ih
    rw [hasKey_cons] at hpre
    cases hr : hasKey rest "description"
    · rfl
    · rw [hr] at hpre
      simp at hpre

theorem find?_name_update_cheats (x : JVal) :
    ∀ pre : Game,
      (pre.map (fun p => if p.1 = "cheats" then ("cheats", x) else p)).find?
          (fun p => p.1 = "name")
        = pre.find? (fun p => p.1 = "name") := by
  intro pre
  induction pre with
  | nil => rfl
  | cons q rest ih =>
    rw [List.map_cons]
    by_cases hq : q.1 = "name"
    · have hqc : ¬ q.1 = "cheats" := by rw [hq]; decide
      rw [if_neg hqc, List.find?_cons_of_pos _ (by simpa using hq),
        List.find?_cons_of_pos _ (by simpa using hq)]
    · have hhead : ((if q.1 = "cheats" then ("cheats", x) else q).1) = q.1 := by
        by_cases hqc : q.1 = "cheats"
        · rw [if_pos hqc, hqc]
        · rw [if_neg hqc]
      rw [List.find?_cons_of_neg _ (by simpa [hhead] using hq),
        List.find?_cons_of_neg _ (by simpa using hq)]
      exact ih

theorem find?_name_dictInsert_cheats (pre : Game) (x : JVal) :
    (dictInsert pre "cheats" x).find? (fun p => p.1 = "name")
      = pre.find? (fun p => p.1 = "name") := by
  unfold dictInsert
  by_cases hk : hasKey pre "cheats"
  · rw [if_pos hk]
    exact find?_name_update_cheats x pre
  · rw [if_neg hk, List.find?_append]
    have hnone : List.find? (fun p => p.1 = "name") [("cheats", x)] = none := by
      rw [List.find?_cons_of_neg _ (by simp)]
      rfl
    rw [hnone]
    cases pre.find? (fun p => p.1 = "name") <;> rfl

theorem getNameStr_dictInsert_cheats (pre rest : Game) (x : JVal) :
    getNameStr (dictInsert pre "cheats" x ++ rest) = getNameStr (pre ++ rest) := by
  unfold getNameStr
  rw [List.find?_append, List.find?_append, find?_name_dictInsert_cheats]

theorem dictInsert_idem {V : Type} (m : List (String × V)) (k : String) (v : V) :
    dictInsert (dictInsert m k v) k v = dictInsert m k v := by
  have hk2 : hasKey (dictInsert m k v) k = true := by
    rw [hasKey_dictInsert]
    simp
  by_cases hk : hasKey m k
  · unfold dictInsert
    rw [if_pos hk]
    rw [if_pos (by
      have := hk2
      unfold dictInsert at this
      rw [if_pos hk] at this
      exact this)]
    rw [List.map_map]
    apply List.map_congr_left
    intro p _
    by_cases hp : p.1 = k
    · simp [hp]
    · simp [hp]
  · have h1 : dictInsert m k v = m ++ [(k, v)] := dictInsert_fresh m k v (by simpa using hk)
    rw [h1]
    unfold dictInsert
    rw [if_pos (by rw [← h1]; exact hk2)]
    rw [List.map_append]
    have h2 : m.map (fun p => if p.1 = k then (k, v) else p) = m := by
      conv_rhs => rw [← List.map_id m]
      apply List.map_congr_left
      intro p hp
      have hpk : ¬ p.1 = k := by
        intro hc
        have : hasKey m k = true := hc ▸ hasKey_of_mem_pair m p hp
        rw [(by simpa using hk : hasKey m k = false)] at this
        exact Bool.false_ne_true this
      simp [hpk]
    have h3 : List.map (fun p => if p.1 = k then (k, v) else p) [(k, v)] = [(k, v)] := by
      simp
    rw [h2, h3]

/-- Per-entry idempotence of the annotation, for entries with unique field
names and no `cheats` field positioned after a `description` field. -/
theorem annotateGame_idem (cht_files : List String) (g : Game)
    (hnd : (keysOf g).Nodup) (hcad : cheatsAfterDescr g = false) :
    annotateGame cht_files (annotateGame cht_files g) = annotateGame cht_files g := by
  by_cases hdesc : hasKey g "description" = true
  · rcases exists_first_desc g hdesc with ⟨pre, d, post, hg, hpre⟩
    subst hg
    have hpost : hasKey post "cheats" = false := by
      rw [← cheatsAfterDescr_split d pre post hpre]
      exact hcad
    have hg1 : annotateGame cht_files (pre ++ ("description", d) :: post)
        = dictInsert pre "cheats"
            (JVal.jstr (cheatsValue cht_files (pre ++ ("description", d) :: post)))
            ++ ("description", d) :: post := by
      unfold annotateGame
      exact rebuild_with_desc _ pre post d hnd hpre hpost
    rw [hg1]
    have hcveq : cheatsValue cht_files
        (dictInsert pre "cheats"
          (JVal.jstr (cheatsValue cht_files (pre ++ ("description", d) :: post)))
          ++ ("description", d) :: post)
        = cheatsValue cht_files (pre ++ ("description", d) :: post) := by
      unfold cheatsValue
      rw [getNameStr_dictInsert_cheats]
    have hAdesc : hasKey (dictInsert pre "cheats"
        (JVal.jstr (cheatsValue cht_files (pre ++ ("description", d) :: post))))
        "description" = false := by
      rw [hasKey_dictInsert, hpre]
      simp
    have hkeys : keysOf (pre ++ ("description", d) :: post)
        = keysOf pre ++ "description" :: keysOf post := by
      rw [keysOf_append]
      rfl
    have hndA : (keysOf (dictInsert pre "cheats"
        (JVal.jstr (cheatsValue cht_files (pre ++ ("description", d) :: post)))
        ++ ("description", d) :: post)).Nodup := by
      rw [keysOf_append, keysOf_dictInsert]
      by_cases hkc : hasKey pre "cheats"
      · rw [if_pos hkc, ← keysOf_append]
        exact hnd
      · rw [if_neg hkc]
        have hpc : keysOf (("description", d) :: post) = "description" :: keysOf post := rfl
        rw [hpc]
        rw [hkeys] at hnd
        have hchnotpre : "cheats" ∉ keysOf pre := by
          intro hc
          have : hasKey pre "cheats" = true := (hasKey_eq_true_iff pre "cheats").2 hc
          exact hkc this
        have hchnotpost : "cheats" ∉ keysOf post := by
          intro hc
          have : hasKey post "cheats" = true := (hasKey_eq_true_iff post "cheats").2 hc
          rw [hpost] at this
          exact Bool.false_ne_true this
        have hnd1 := List.nodup_append.1 hnd
        rw [List.nodup_append]
        refine ⟨?_, hnd1.2.1, ?_⟩
        · rw [List.nodup_append]
          refine ⟨hnd1.1, List.nodup_singleton _, ?_⟩
          intro a ha hb
          simp only [List.mem_singleton] at hb
          subst hb
          exact hchnotpre ha
        · intro a ha hb
          rcases List.mem_append.1 ha with h1 | h1
          · exact hnd1.2.2 h1 hb
          · simp only [List.mem_singleton] at h1
            subst h1
            rcases List.mem_cons.1 hb with h2 | h2
            · exact absurd h2.symm (by decide)
            · exact hchnotpost h2
    unfold annotateGame
    rw [hcveq]
    rw [rebuild_with_desc _ _ post d hndA hAdesc hpost]
    rw [dictInsert_idem]
  · have hfalse : hasKey g "description" = false := by simpa using hdesc
    by_cases hch : hasKey g "cheats"
    · have hfix : annotateGame cht_files g = g := by
        unfold annotateGame
        rw [rebuild_no_desc _ g hnd hfalse, if_pos hch]
      rw [hfix]
      exact hfix
    · have hchf : hasKey g "cheats" = false := by simpa using hch
      have hg1 : annotateGame cht_files g
          = g ++ [("cheats", JVal.jstr (cheatsValue cht_files g))] := by
        unfold annotateGame
        rw [rebuild_no_desc _ g hnd hfalse, if_neg hch]
      have hdesc2 : hasKey (g ++ [("cheats", JVal.jstr (cheatsValue cht_files g))])
          "description" = false := by
        rw [hasKey_append, hfalse]
        simp [hasKey]
      have hnd2 : (keysOf (g ++ [("cheats", JVal.jstr (cheatsValue cht_files g))])).Nodup := by
        rw [keysOf_append, List.nodup_append]
        refine ⟨hnd, List.nodup_singleton _, ?_⟩
        intro a ha hb
        simp only [keysOf, List.map_cons, List.map_nil, List.mem_singleton] at hb
        subst hb
        have : hasKey g "cheats" = true := (hasKey_eq_true_iff g "cheats").2 ha
        rw [hchf] at this
        exact Bool.false_ne_true this
      have hch2 : hasKey (g ++ [("cheats", JVal.jstr (cheatsValue cht_files g))])
          "cheats" = true := by
        rw [hasKey_append]
        simp [hasKey]
      have hfix2 : annotateGame cht_files
          (g ++ [("cheats", JVal.jstr (cheatsValue cht_files g))])
          = g ++ [("cheats", JVal.jstr (cheatsValue cht_files g))] := by
        unfold annotateGame
        rw [rebuild_no_desc _ _ hnd2 hdesc2, if_pos hch2]
      rw [hg1]
      exact hfix2

/-- Claim C4 counterexample: an entry whose `cheats` field comes after its
`description` field.  The first annotation moves `cheats` before
`description` but keeps the old value; the second annotation then
overwrites the value, so annotating twice differs from annotating once. -/
theorem c4_counterexample :
    add_cheats_field []
        [[("description", JVal.jstr "d"), ("cheats", JVal.jstr "old")]]
      = [[("cheats", JVal.jstr "old"), ("description", JVal.jstr "d")]]
    ∧ add_cheats_field [] (add_cheats_field []
        [[("description", JVal.jstr "d"), ("cheats", JVal.jstr "old")]])
      = [[("cheats", JVal.jstr ""), ("description", JVal.jstr "d")]]
    ∧ add_cheats_field [] (add_cheats_field []
        [[("description", JVal.jstr "d"), ("cheats", JVal.jstr "old")]])
      ≠ add_cheats_field []
        [[("description", JVal.jstr "d"), ("cheats", JVal.jstr "old")]] := by
  refine ⟨by decide, by decide, by decide⟩

/-- Claim C4 (amended): annotating twice equals annotating once for every
catalog whose entries have unique field names and do not already carry a
`cheats` field positioned after a `description` field; in particular no
duplicate `cheats` field is ever inserted. -/
theorem c4_annotate_idempotent (cht_files : List String) (games : List Game)
    (hnd : ∀ g ∈ games, (keysOf g).Nodup)
    (hcad : ∀ g ∈ games, cheatsAfterDescr g = false) :
    add_cheats_field cht_files (add_cheats_field cht_files games)
      = add_cheats_field cht_files games := by
  unfold add_cheats_field
  rw [List.map_map]
  apply List.map_congr_left
  intro g hg
  exact annotateGame_idem cht_files g (hnd g hg) (hcad g hg)

/-- Witness for the amended C4 on a concrete one-entry catalog. -/
theorem c4_witness :
    ((∀ g ∈ [[("name", JVal.jstr "A"), ("description", JVal.jstr "d")]],
        (keysOf g).Nodup)
      ∧ (∀ g ∈ [[("name", JVal.jstr "A"), ("description", JVal.jstr "d")]],
        cheatsAfterDescr g = false))
    ∧ add_cheats_field ["A"] (add_cheats_field ["A"]
        [[("name", JVal.jstr "A"), ("description", JVal.jstr "d")]])
      = add_cheats_field ["A"]
        [[("name", JVal.jstr "A"), ("description", JVal.jstr "d")]] :=
  ⟨⟨by decide, by decide⟩,
    c4_annotate_idempotent ["A"]
      [[("name", JVal.jstr "A"), ("description", JVal.jstr "d")]]
      (by decide) (by decide)⟩

/-! ## Claim C10 -/

theorem no_key_of_hasKey_false {V : Type} (l : List (String × V)) (k : String)
    (h : hasKey l k = false) : ∀ p ∈ l, ¬ p.1 = k := by
  intro p hp hc
  have : hasKey l k = true := hc ▸ hasKey_of_mem_pair l p hp
  rw [h] at this
  exact Bool.false_ne_true this

theorem hasKey_of_lookupS_some {V : Type} (m : List (String × V)) (k : String) (v : V)
    (h : lookupS m k = some v) : hasKey m k = true :=
  hasKey_of_mem m k v (lookupS_some_mem m k v h)

theorem lookupS_rebuild_fold (cv : JVal) :
    ∀ (l : Game) (acc : Game), (∀ p ∈ l, ¬ p.1 = "cheats") →
      (lookupS acc "cheats" = none ∨ lookupS acc "cheats" = some cv) →
      (lookupS (l.foldl (rebuildStep cv) acc) "cheats" = none
        ∨ lookupS (l.foldl (rebuildStep cv) acc) "cheats" = some cv) := by
  intro l
  induction l with
  | nil => intro acc _ hacc; exact hacc
  | cons p rest ih =>
    intro acc hl hacc
    rw [List.foldl_cons]
    apply ih _ (fun q hq => hl q (List.mem_cons_of_mem _ hq))
    unfold rebuildStep
    have hp : ¬ p.1 = "cheats" := hl p (List.mem_cons_self _ _)
    rw [lookupS_dictInsert_ne _ p.1 "cheats" p.2 (fun hc => hp hc.symm)]
    by_cases hd : p.1 = "description"
    · rw [if_pos hd]
      right
      exact lookupS_dictInsert_self acc "cheats" cv
    · rw [if_neg hd]
      exact hacc

theorem hasKey_eq_false_of_lookupS_none {V : Type} (m : List (String × V)) (k : String)
    (h : lookupS m k = none) : hasKey m k = false := by
  have hfind : m.find? (fun p => p.1 = k) = none := by
    unfold lookupS at h
    cases hf : m.find? (fun p => p.1 = k)
    · rfl
    · rw [hf] at h
      exact Option.noConfusion h
  cases hc : hasKey m k
  · rfl
  · have hmem := (hasKey_eq_true_iff m k).1 hc
    rw [keysOf, List.mem_map] at hmem
    rcases hmem with ⟨p, hp, hpk⟩
    have hno := List.find?_eq_none.1 hfind p hp
    rw [hpk] at hno
    simp at hno

theorem lookupS_cheats_annotate (cht_files : List String) (g : Game)
    (hg : hasKey g "cheats" = false) :
    lookupS (annotateGame cht_files g) "cheats"
      = some (JVal.jstr (cheatsValue cht_files g)) := by
  unfold annotateGame rebuild
  have hfold := lookupS_rebuild_fold (JVal.jstr (cheatsValue cht_files g)) g []
    (no_key_of_hasKey_false g "cheats" hg) (Or.inl rfl)
  rcases hfold with h1 | h1
  · rw [if_neg (by rw [hasKey_eq_false_of_lookupS_none _ _ h1]; simp)]
    rw [lookupS_append, h1]
    rw [lookupS_cons_pos ("cheats", JVal.jstr (cheatsValue cht_files g)) [] "cheats" rfl]
    rfl
  · rw [if_pos (hasKey_of_lookupS_some _ _ _ h1)]
    exact h1

theorem hasKey_cheats_annotate (cht_files : List String) (g : Game) :
    hasKey (annotateGame cht_files g) "cheats" = true := by
  unfold annotateGame rebuild
  by_cases h : hasKey (g.foldl (rebuildStep (JVal.jstr (cheatsValue cht_files g))) [])
      "cheats"
  · rw [if_pos h]
    exact h
  · rw [if_neg h, hasKey_append, hasKey_cons]
    simp

theorem copyCheatsRun_skips_empty (m : List (String × List String))
    (cheat_files : List String) :
    ∀ (game_names : List String) (acc : List CopyRecord × List String),
      game_names.foldl (copyGameStep m cheat_files) acc
        = (game_names.filter (fun n => n ≠ "")).foldl (copyGameStep m cheat_files) acc := by
  intro game_names
  induction game_names with
  | nil => intro acc; rfl
  | cons n rest ih =>
    intro acc
    by_cases hn : n = ""
    · subst hn
      rw [List.foldl_cons]
      have hstep : copyGameStep m cheat_files acc "" = acc := by
        unfold copyGameStep
        rw [if_pos rfl]
      have hfil : List.filter (fun x => x ≠ "") ("" :: rest)
          = List.filter (fun x => x ≠ "") rest := by
        simp [List.filter]
      rw [hstep, hfil]
      exact ih acc
    · have hfil : List.filter (fun x => x ≠ "") (n :: rest)
          = n :: List.filter (fun x => x ≠ "") rest := by
        simp [List.filter, hn]
      rw [List.foldl_cons, hfil, List.foldl_cons]
      exact ih _

/-- Claim C10 counterexample: an entry that already carries a `cheats`
value and has no display name is kept verbatim by the Annotator, so its
`cheats` field stays `old` instead of being set to the empty string even
though its (missing) name equals no cheat-file stem. -/
theorem c10_counterexample :
    getNameStr [("cheats", JVal.jstr "old")] = some ""
    ∧ annotateGame [] [("cheats", JVal.jstr "old")] = [("cheats", JVal.jstr "old")]
    ∧ lookupS (annotateGame [] [("cheats", JVal.jstr "old")]) "cheats"
        ≠ some (JVal.jstr "") := by
  refine ⟨by decide, by decide, by decide⟩

/-- Claim C10 (amended): the Annotator skips no entry - the output has one
entry per input entry and every output entry carries a `cheats` field; for
entries that do not already contain a `cheats` field (including entries
with a missing or empty name) whose name equals no cheat-file stem, the
field is the empty string.  The Importer, by contrast, ignores entries with
an empty display name entirely: its run equals the run on the catalog with
those entries filtered out. -/
theorem c10_no_entry_skipped (cht_files : List String) (games : List Game)
    (g : Game) (game_names : List String) (m : List (String × List String))
    (cheat_files : List String) :
    (add_cheats_field cht_files games).length = games.length
    ∧ hasKey (annotateGame cht_files g) "cheats" = true
    ∧ (hasKey g "cheats" = false →
        (∀ s, getNameStr g = some s → cht_files.contains s = false) →
        lookupS (annotateGame cht_files g) "cheats" = some (JVal.jstr ""))
    ∧ copyCheatsRun game_names m cheat_files
        = copyCheatsRun (game_names.filter (fun n => n ≠ "")) m cheat_files := by
  refine ⟨by simp [add_cheats_field], hasKey_cheats_annotate cht_files g, ?_, ?_⟩
  · intro hg hname
    have hcv : cheatsValue cht_files g = "" := by
      unfold cheatsValue
      cases hn : getNameStr g with
      | none => rfl
      | some s =>
        have hcs := hname s hn
        simp [hcs]
        intro hmem
        have hct : cht_files.contains s = true := by simpa using hmem
        rw [hct] at hcs
        exact Bool.noConfusion hcs
    rw [lookupS_cheats_annotate cht_files g hg, hcv]
  · exact copyCheatsRun_skips_empty m cheat_files game_names ([], [])

/-- Witness for the amended C10: a nameless entry without a `cheats` field
gets the empty-string sentinel, at concrete inputs. -/
theorem c10_witness :
    hasKey [("description", JVal.jstr "x")] "cheats" = false
    ∧ lookupS (annotateGame ["Whatever"] [("description", JVal.jstr "x")]) "cheats"
        = some (JVal.jstr "") :=
  ⟨by decide,
    (c10_no_entry_skipped ["Whatever"] [] [("description", JVal.jstr "x")] [] [] []).2.2.1
      (by decide)
      (by
        intro s hs
        have h0 : getNameStr [("description", JVal.jstr "x")] = some "" := by decide
        rw [h0] at hs
        have hse : s = "" := (Option.some.inj hs).symm
        subst hse
        decide)⟩

/-! ## Description Translator (translate_cheats.py lines 36-94)

The translation call itself is external; it is injected as a function
argument, as the spec's design notes prescribe for testability.
-/

/-- Leading-literal matcher: consume the exact characters of the first
list from the front of the second. -/
def matchLit : List Char → List Char → Option (List Char)
  | [], l => some l
  | _ :: _, [] => none
  | c :: cs, x :: xs => if x = c then matchLit cs xs else none

/-- Model of the regex match `^(cheat\d+_desc\s*=\s*)"(.+)"$` on the
stripped line: `some (group1, group2)` on success.  Group 1 is `cheat`,
the digits, `_desc` and the spacing around `=`; group 2 is everything
between the quote after the equals sign and the final quote (nonempty,
newline-free). -/
def parseDescLine (l : List Char) : Option (String × String) :=
  match matchLit "cheat".data l with
  | none => none
  | some r1 =>
    match r1.span Char.isDigit with
    | (ds, r2) =>
      if ds = [] then none
      else
        match matchLit "_desc".data r2 with
        | none => none
        | some r3 =>
          match r3.span pyIsSpace with
          | (ws1, r4) =>
            match matchLit ['='] r4 with
            | none => none
            | some r5 =>
              match r5.span pyIsSpace with
              | (ws2, r6) =>
                match matchLit ['"'] r6 with
                | none => none
                | some r7 =>
                  if 2 ≤ r7.length ∧ r7.getLast? = some '"' ∧ '\n' ∉ r7.dropLast then
                    some (String.mk ("cheat".data ++ ds ++ "_desc".data ++ ws1
                        ++ ['='] ++ ws2), String.mk r7.dropLast)
                  else none

/-- Truth of `re.search(r'[一-鿿]', text)`: does the text contain a
CJK character. -/
def containsCJK (text : String) : Bool :=
  text.data.any (fun ch => 0x4e00 ≤ ch.toNat && ch.toNat ≤ 0x9fff)

/-- Handling of one line by `translate_cht_file`: lines that do not match
the description pattern pass through unchanged, as do lines whose text is
already Chinese or whose translation comes back unchanged; otherwise the
line is re-emitted as one space per leading-whitespace character of the
original line, group 1, the quoted translation, and a newline. -/
def processLine (tr : String → String) (line : String) : String :=
  match parseDescLine (pyStripChars line.data) with
  | none => line
  | some (grp1, text) =>
    if containsCJK text then line
    else if tr text ≠ text then
      String.mk
          (List.replicate (line.data.length - (line.data.dropWhile pyIsSpace).length) ' ')
        ++ grp1 ++ "\"" ++ tr text ++ "\"" ++ "\n"
    else line

/-- The `new_lines` list built by `translate_cht_file`. -/
def translate_cht_lines (tr : String → String) (lines : List String) : List String :=
  lines.map (processLine tr)

/-- A stand-in for the external translation service used at the concrete
failing input. -/
def demoTr (s : String) : String := if s = "Infinite lives" then "无限生命" else s

/-! ## Claim C7 -/

/-- Claim C7 at the failing input: a tab-indented description line is
translated, but its leading tab is re-emitted as a single space, so the
original indentation is not preserved (the code comment promises to keep
it).  Unindented matching lines and non-matching lines behave as claimed. -/
theorem c7_tab_indent_not_preserved :
    processLine demoTr "\tcheat1_desc = \"Infinite lives\"\n"
        = " cheat1_desc = \"无限生命\"\n"
    ∧ ("\tcheat1_desc = \"Infinite lives\"\n".data.take 1 = ['\t']
        ∧ (" cheat1_desc = \"无限生命\"\n").data.take 1 = [' '])
    ∧ processLine demoTr "cheat1_desc = \"Infinite lives\"\n"
        = "cheat1_desc = \"无限生命\"\n"
    ∧ processLine demoTr "rom_name = \"x\"\n" = "rom_name = \"x\"\n"
    ∧ processLine demoTr "cheat2_desc = \"无限生命\"\n" = "cheat2_desc = \"无限生命\"\n" := by
  refine ⟨by decide, ⟨by decide, by decide⟩, by decide, by decide, by decide⟩

/-! ## Claim C8 -/

/-- Python list slice `l[:n]`; a negative stop counts from the end. -/
def pySliceTo {α : Type} (l : List α) (n : Int) : List α :=
  if 0 ≤ n then l.take n.toNat else l.take (l.length - (-n).toNat)

/-- The `.cht` files iterated by `translate_all_cheats`: the guard
`if limit:` is false both for `None` and for `0`, so only a nonzero limit
truncates the list. -/
def effectiveFiles (cht_files : List String) (limit : Option Int) : List String :=
  match limit with
  | none => cht_files
  | some n => if n = 0 then cht_files else pySliceTo cht_files n

/-- Claim C8 counterexample: `--limit 0` is falsy, so the run still
processes every file instead of none. -/
theorem c8_counterexample :
    effectiveFiles ["a.cht"] (some 0) = ["a.cht"]
    ∧ ¬ ((effectiveFiles ["a.cht"] (some 0)).length ≤ 0) := by
  refine ⟨by decide, by decide⟩

/-- Claim C8 (amended): every positive `--limit n` bounds the number of
processed files by `n`; a limit of `0` (or no limit) disables the bound and
processes every file. -/
theorem c8_positive_limit_bounds (cht_files : List String) (n : Int) (h : 0 < n) :
    ((effectiveFiles cht_files (some n)).length : Int) ≤ n := by
  show ((if n = 0 then cht_files else pySliceTo cht_files n).length : Int) ≤ n
  rw [if_neg (by omega : ¬ n = 0)]
  show ((if (0:Int) ≤ n then cht_files.take n.toNat
      else cht_files.take (cht_files.length - (-n).toNat)).length : Int) ≤ n
  rw [if_pos (by omega : (0:Int) ≤ n)]
  have hlen : (cht_files.take n.toNat).length = min n.toNat cht_files.length :=
    List.length_take _ _
  omega

/-- Witness for the amended C8 at a concrete positive limit. -/
theorem c8_positive_limit_bounds_witness :
    ((0:Int) < 2)
    ∧ ((effectiveFiles ["a.cht", "b.cht", "c.cht"] (some 2)).length : Int) ≤ 2 :=
  ⟨by decide, c8_positive_limit_bounds ["a.cht", "b.cht", "c.cht"] 2 (by decide)⟩

end GamesNes
